import Mathlib

/-!
Verification of the market-data streaming backend (`src/main.py`).

The core of the repository is `market_stream`: a generator that carries a
per-session simulation state (last unrounded close price and a latency value),
draws random jitter and price multipliers each tick, builds an OHLC bar plus
envelope, serializes it as JSON, signs the serialization with HMAC-SHA256 and
yields an SSE event; the route `sse_market` forwards events until the client
disconnects.

Modelling conventions:
* Python floats are modelled as exact rationals (`ℚ`); `round(x, 2)` is
  modelled as round-half-to-even of `x * 100` to an integer, divided by 100
  (CPython rounds floats to decimal places with half-to-even tie breaking).
* Randomness is modelled by an explicit `Draw` record per tick:
  `random.randint(-20, 20)` becomes an integer field, `random.uniform(a, b)`
  becomes `a + (b - a) * t` for a rational field `t` (this is exactly how
  `random.uniform` computes its result from `random.random()`), with range
  hypotheses stated on the theorems that need them.
* The unbounded `while True` loop becomes structural recursion over the list
  of draws consumed so far.
-/

/-! ## Rounding: Python `round(x, 2)` on a rational, half-to-even -/

/-- Round a rational to the nearest integer, ties to even
(the tie-breaking rule CPython uses when rounding floats). -/
def rhe (x : ℚ) : ℤ :=
  if x - (⌊x⌋ : ℚ) < 1/2 then ⌊x⌋
  else if 1/2 < x - (⌊x⌋ : ℚ) then ⌊x⌋ + 1
  else if 2 ∣ ⌊x⌋ then ⌊x⌋ else ⌊x⌋ + 1

/-- `round(x, 2)` from Python, on exact rationals. -/
def round2 (x : ℚ) : ℚ := (rhe (x * 100) : ℚ) / 100

theorem rhe_ge_floor (x : ℚ) : ⌊x⌋ ≤ rhe x := by
  unfold rhe; split_ifs <;> omega

theorem rhe_le_floor_add_one (x : ℚ) : rhe x ≤ ⌊x⌋ + 1 := by
  unfold rhe; split_ifs <;> omega

theorem rhe_mono {x y : ℚ} (h : x ≤ y) : rhe x ≤ rhe y := by
  rcases lt_or_eq_of_le (Int.floor_le_floor h) with hf | hf
  · calc rhe x ≤ ⌊x⌋ + 1 := rhe_le_floor_add_one x
    _ ≤ ⌊y⌋ := by omega
    _ ≤ rhe y := rhe_ge_floor y
  · have hr : x - (⌊x⌋ : ℚ) ≤ y - (⌊y⌋ : ℚ) := by
      rw [hf]; linarith
    unfold rhe
    rw [hf] at hr ⊢
    split_ifs <;> first | omega | (exfalso; linarith)

theorem round2_mono {x y : ℚ} (h : x ≤ y) : round2 x ≤ round2 y := by
  unfold round2
  have := rhe_mono (mul_le_mul_of_nonneg_right h (by norm_num : (0:ℚ) ≤ 100))
  have hc : ((rhe (x * 100) : ℤ) : ℚ) ≤ ((rhe (y * 100) : ℤ) : ℚ) := by exact_mod_cast this
  have h100 : (0:ℚ) < 100 := by norm_num
  exact (div_le_div_iff_of_pos_right h100).mpr hc

/-! ## The simulated price process (`market_stream`, lines 82–96) -/

/-- `SimState`: the per-session mutable state of `market_stream`:
`last_close` (kept at full precision) and `latency_ms`. -/
structure SimState where
  lastClose : ℚ
  latencyMs : ℤ
  deriving Repr, DecidableEq

/-- One tick's random draws: `jitter = random.randint(-20, 20)`,
`u` and `u2` the two `random.uniform(0.0001, 0.0015)` draws for high/low,
and `t` the `random.random()` position used by `random.uniform(low, high)`. -/
structure Draw where
  jitter : ℤ
  u : ℚ
  u2 : ℚ
  t : ℚ
  deriving Repr, DecidableEq

/-- Initial state of a session: `last_close = base_price = 68000.0`,
`latency_ms = 50` (lines 82–84). -/
def initState : SimState := { lastClose := 68000, latencyMs := 50 }

/-- `max(20, min(250, x))` (line 89). -/
def clampLat (x : ℤ) : ℤ := max 20 (min 250 x)

/-- `open_price = last_close` (line 92), before rounding. -/
def openVal (s : SimState) : ℚ := s.lastClose

/-- `high = open_price * (1 + random.uniform(0.0001, 0.0015))` (line 93), before rounding. -/
def hiVal (s : SimState) (d : Draw) : ℚ := openVal s * (1 + d.u)

/-- `low = open_price * (1 - random.uniform(0.0001, 0.0015))` (line 94), before rounding. -/
def loVal (s : SimState) (d : Draw) : ℚ := openVal s * (1 - d.u2)

/-- `close = random.uniform(low, high)` (line 95), before rounding:
`uniform(a, b)` returns `a + (b - a) * random.random()`. -/
def closeVal (s : SimState) (d : Draw) : ℚ :=
  loVal s d + (hiVal s d - loVal s d) * d.t

/-- The OHLC bar as emitted: all four price fields rounded to 2 decimals
(lines 105–111; the `t` unix-seconds field is modelled separately as a clock
input when the envelope is built). -/
structure Bar where
  o : ℚ
  h : ℚ
  l : ℚ
  c : ℚ
  deriving Repr, DecidableEq

/-- Everything one loop iteration emits besides clock readings. -/
structure TickOut where
  latency : ℤ
  bar : Bar
  deriving Repr, DecidableEq

/-- One iteration of the `while True` body (lines 86–96): update latency by
clamped jitter, derive the bar from the carried `last_close`, and carry the
unrounded close forward. -/
def step (s : SimState) (d : Draw) : TickOut × SimState :=
  let lat := clampLat (s.latencyMs + d.jitter)
  ({ latency := lat,
     bar := { o := round2 (openVal s), h := round2 (hiVal s d),
              l := round2 (loVal s d), c := round2 (closeVal s d) } },
   { lastClose := closeVal s d, latencyMs := lat })

/-- The outputs of a session run from state `s` consuming the given draws. -/
def runTicks (s : SimState) : List Draw → List TickOut
  | [] => []
  | d :: ds => (step s d).1 :: runTicks (step s d).2 ds

/-- The state after consuming the given draws. -/
def runState (s : SimState) : List Draw → SimState
  | [] => s
  | d :: ds => runState (step s d).2 ds

theorem runTicks_length (s : SimState) (ds : List Draw) :
    (runTicks s ds).length = ds.length := by
  induction ds generalizing s with
  | nil => rfl
  | cons d ds ih => simp [runTicks, ih]

theorem runTicks_get (s : SimState) (ds : List Draw) (i : ℕ)
    (h : i < (runTicks s ds).length) (h' : i < ds.length) :
    (runTicks s ds).get ⟨i, h⟩
      = (step (runState s (ds.take i)) (ds.get ⟨i, h'⟩)).1 := by
  induction ds generalizing s i with
  | nil => simp at h'
  | cons d ds ih =>
    cases i with
    | zero => rfl
    | succ j =>
      have hj : j < (runTicks (step s d).2 ds).length := by
        simpa [runTicks] using h
      have hj' : j < ds.length := by simpa using h'
      simpa [runTicks, runState] using ih (step s d).2 j hj hj'

theorem runTicks_head_o (s : SimState) (ds : List Draw)
    (h : 0 < (runTicks s ds).length) :
    ((runTicks s ds).get ⟨0, h⟩).bar.o = round2 s.lastClose := by
  cases ds with
  | nil => simp [runTicks] at h
  | cons d ds => rfl

theorem runTicks_adjacent (s : SimState) (ds : List Draw) (i : ℕ)
    (h : i + 1 < (runTicks s ds).length) (h' : i < (runTicks s ds).length) :
    ((runTicks s ds).get ⟨i + 1, h⟩).bar.o
      = ((runTicks s ds).get ⟨i, h'⟩).bar.c := by
  induction ds generalizing s i with
  | nil => simp [runTicks] at h
  | cons d ds ih =>
    cases i with
    | zero =>
      have h0 : 0 < (runTicks (step s d).2 ds).length := by
        simp [runTicks] at h; omega
      show ((runTicks (step s d).2 ds).get ⟨0, h0⟩).bar.o = (step s d).1.bar.c
      rw [runTicks_head_o]
      rfl
    | succ j =>
      have hj : j + 1 < (runTicks (step s d).2 ds).length := by
        simpa [runTicks] using h
      have hj' : j < (runTicks (step s d).2 ds).length := by omega
      exact ih (step s d).2 j hj hj'

theorem round2_base : round2 68000 = 68000 := by
  norm_num [round2, rhe]

/-- **C1** Price continuity: in a session started from the base price, every
tick after the first has its emitted `o` equal to the previous tick's emitted
`c`, and the first tick's `o` equals the base price `68000.0` (which is its
own 2-decimal rounding). -/
theorem price_continuity (ds : List Draw) :
    (∀ (i : ℕ) (h : i + 1 < (runTicks initState ds).length)
        (h' : i < (runTicks initState ds).length),
        ((runTicks initState ds).get ⟨i + 1, h⟩).bar.o
          = ((runTicks initState ds).get ⟨i, h'⟩).bar.c)
    ∧ ∀ (h0 : 0 < (runTicks initState ds).length),
        ((runTicks initState ds).get ⟨0, h0⟩).bar.o = 68000 := by
  refine ⟨fun i h h' => runTicks_adjacent initState ds i h h', fun h0 => ?_⟩
  rw [runTicks_head_o]
  exact round2_base

/-- Witness for C1 on a concrete two-tick session. -/
theorem price_continuity_witness :
    ((runTicks initState [⟨5, 1/1000, 1/2000, 1/2⟩, ⟨-3, 1/1000, 1/1000, 1/3⟩]).get
        ⟨1, by decide⟩).bar.o
      = ((runTicks initState [⟨5, 1/1000, 1/2000, 1/2⟩, ⟨-3, 1/1000, 1/1000, 1/3⟩]).get
        ⟨0, by decide⟩).bar.c
    ∧ ((runTicks initState [⟨5, 1/1000, 1/2000, 1/2⟩, ⟨-3, 1/1000, 1/1000, 1/3⟩]).get
        ⟨0, by decide⟩).bar.o = 68000 :=
  ⟨(price_continuity [⟨5, 1/1000, 1/2000, 1/2⟩, ⟨-3, 1/1000, 1/1000, 1/3⟩]).1 0
      (by decide) (by decide),
   (price_continuity [⟨5, 1/1000, 1/2000, 1/2⟩, ⟨-3, 1/1000, 1/1000, 1/3⟩]).2
      (by decide)⟩

theorem clampLat_bounds (x : ℤ) : 20 ≤ clampLat x ∧ clampLat x ≤ 250 :=
  ⟨le_max_left _ _, max_le (by norm_num) (min_le_left _ _)⟩

theorem runState_latency (s : SimState) (ds : List Draw)
    (hs : 20 ≤ s.latencyMs ∧ s.latencyMs ≤ 250) :
    20 ≤ (runState s ds).latencyMs ∧ (runState s ds).latencyMs ≤ 250 := by
  induction ds generalizing s with
  | nil => exact hs
  | cons d ds ih => exact ih _ (clampLat_bounds _)

/-- **C3** Latency bound: whatever the jitter draws (the stated range
`[-20, 20]` included), every emitted `latency_ms` and every latency value
carried in the state lies within `[20, 250]`. -/
theorem latency_bounds (ds : List Draw)
    (_hj : ∀ d ∈ ds, -20 ≤ d.jitter ∧ d.jitter ≤ 20) :
    (∀ (i : ℕ) (h : i < (runTicks initState ds).length),
        20 ≤ ((runTicks initState ds).get ⟨i, h⟩).latency
          ∧ ((runTicks initState ds).get ⟨i, h⟩).latency ≤ 250)
    ∧ ∀ (n : ℕ), 20 ≤ (runState initState (ds.take n)).latencyMs
        ∧ (runState initState (ds.take n)).latencyMs ≤ 250 := by
  constructor
  · intro i h
    have h' : i < ds.length := by rwa [runTicks_length] at h
    rw [runTicks_get _ _ _ h h']
    exact clampLat_bounds _
  · intro n
    exact runState_latency _ _ (by norm_num [initState])

/-- Witness for C3 on a concrete one-tick session. -/
theorem latency_bounds_witness :
    (20 ≤ ((runTicks initState [⟨20, 1/1000, 1/1000, 0⟩]).get ⟨0, by decide⟩).latency
      ∧ ((runTicks initState [⟨20, 1/1000, 1/1000, 0⟩]).get ⟨0, by decide⟩).latency ≤ 250)
    ∧ 20 ≤ (runState initState ([⟨20, 1/1000, 1/1000, 0⟩].take 1)).latencyMs
    ∧ (runState initState ([⟨20, 1/1000, 1/1000, 0⟩].take 1)).latencyMs ≤ 250 :=
  ⟨(latency_bounds [⟨20, 1/1000, 1/1000, 0⟩] (by decide)).1 0 (by decide),
   (latency_bounds [⟨20, 1/1000, 1/1000, 0⟩] (by decide)).2 1⟩

/-- **C10** Full-precision carry: the state's `lastClose` after a tick is the
unrounded uniform sample (so the next tick's pre-rounding open equals the
previous tick's unrounded close exactly), and it can differ from the rounded
`c` field the bar emits. -/
theorem lastClose_full_precision :
    (∀ (s : SimState) (d : Draw), (step s d).2.lastClose = closeVal s d)
    ∧ (∀ (s : SimState) (d : Draw), openVal (step s d).2 = closeVal s d)
    ∧ ∃ (s : SimState) (d : Draw), (step s d).2.lastClose ≠ (step s d).1.bar.c :=
  ⟨fun _ _ => rfl, fun _ _ => rfl,
    ⟨10000, 50⟩, ⟨0, 1/10000, 1/10000, 1/3⟩, by
      show closeVal _ _ ≠ round2 (closeVal _ _)
      norm_num [closeVal, loVal, hiVal, openVal, round2, rhe]⟩

/-! ## The bar invariant (claim C2) -/

/-- The ranges `random` guarantees for one tick's draws:
`random.uniform(0.0001, 0.0015)` lies in `[1/10000, 15/10000]` and
`random.random()` lies in `[0, 1]`. -/
def ValidDraw (d : Draw) : Prop :=
  1/10000 ≤ d.u ∧ d.u ≤ 15/10000 ∧ 1/10000 ≤ d.u2 ∧ d.u2 ≤ 15/10000
    ∧ 0 ≤ d.t ∧ d.t ≤ 1

theorem loVal_pos {s : SimState} {d : Draw} (hs : 0 < s.lastClose)
    (hd : ValidDraw d) : 0 < loVal s d := by
  obtain ⟨_, _, _, h4, _, _⟩ := hd
  unfold loVal openVal
  nlinarith

theorem loVal_lt_hiVal {s : SimState} {d : Draw} (hs : 0 < s.lastClose)
    (hd : ValidDraw d) : loVal s d < hiVal s d := by
  obtain ⟨h1, _, h3, _, _, _⟩ := hd
  unfold loVal hiVal openVal
  nlinarith

theorem loVal_le_openVal {s : SimState} {d : Draw} (hs : 0 < s.lastClose)
    (hd : ValidDraw d) : loVal s d ≤ openVal s := by
  obtain ⟨_, _, h3, _, _, _⟩ := hd
  unfold loVal openVal
  nlinarith

theorem openVal_le_hiVal {s : SimState} {d : Draw} (hs : 0 < s.lastClose)
    (hd : ValidDraw d) : openVal s ≤ hiVal s d := by
  obtain ⟨h1, _, _, _, _, _⟩ := hd
  unfold hiVal openVal
  nlinarith

theorem loVal_le_closeVal {s : SimState} {d : Draw} (hs : 0 < s.lastClose)
    (hd : ValidDraw d) : loVal s d ≤ closeVal s d := by
  have hlh := loVal_lt_hiVal hs hd
  obtain ⟨_, _, _, _, h5, _⟩ := hd
  unfold closeVal
  nlinarith

theorem closeVal_le_hiVal {s : SimState} {d : Draw} (hs : 0 < s.lastClose)
    (hd : ValidDraw d) : closeVal s d ≤ hiVal s d := by
  have hlh := loVal_lt_hiVal hs hd
  obtain ⟨_, _, _, _, _, h6⟩ := hd
  unfold closeVal
  nlinarith

theorem closeVal_pos {s : SimState} {d : Draw} (hs : 0 < s.lastClose)
    (hd : ValidDraw d) : 0 < closeVal s d :=
  lt_of_lt_of_le (loVal_pos hs hd) (loVal_le_closeVal hs hd)

theorem runState_lastClose_pos (s : SimState) (ds : List Draw)
    (hs : 0 < s.lastClose) (hd : ∀ d ∈ ds, ValidDraw d) :
    0 < (runState s ds).lastClose := by
  induction ds generalizing s with
  | nil => exact hs
  | cons d ds ih =>
    exact ih _ (closeVal_pos hs (hd d (List.mem_cons_self d ds)))
      (fun d' h' => hd d' (List.mem_cons_of_mem _ h'))

/-- **C2** Bar invariant: in a session started from the base price, every tick
has a strictly positive pre-rounding spread (`low < high`, the open staying
positive throughout), and the emitted rounded fields satisfy
`l ≤ o ≤ h` and `l ≤ c ≤ h`. -/
theorem bar_invariant (ds : List Draw) (hv : ∀ d ∈ ds, ValidDraw d)
    (i : ℕ) (h : i < ds.length) (h' : i < (runTicks initState ds).length) :
    0 < openVal (runState initState (ds.take i))
    ∧ loVal (runState initState (ds.take i)) (ds.get ⟨i, h⟩)
        < hiVal (runState initState (ds.take i)) (ds.get ⟨i, h⟩)
    ∧ ((runTicks initState ds).get ⟨i, h'⟩).bar.l
        ≤ ((runTicks initState ds).get ⟨i, h'⟩).bar.o
    ∧ ((runTicks initState ds).get ⟨i, h'⟩).bar.o
        ≤ ((runTicks initState ds).get ⟨i, h'⟩).bar.h
    ∧ ((runTicks initState ds).get ⟨i, h'⟩).bar.l
        ≤ ((runTicks initState ds).get ⟨i, h'⟩).bar.c
    ∧ ((runTicks initState ds).get ⟨i, h'⟩).bar.c
        ≤ ((runTicks initState ds).get ⟨i, h'⟩).bar.h := by
  have hpos : 0 < (runState initState (ds.take i)).lastClose :=
    runState_lastClose_pos _ _ (by norm_num [initState])
      (fun d hd => hv d (List.take_subset i ds hd))
  have hdv : ValidDraw (ds.get ⟨i, h⟩) := hv _ (List.get_mem ds i h)
  rw [runTicks_get _ _ _ h' h]
  exact ⟨hpos, loVal_lt_hiVal hpos hdv,
    round2_mono (loVal_le_openVal hpos hdv),
    round2_mono (openVal_le_hiVal hpos hdv),
    round2_mono (loVal_le_closeVal hpos hdv),
    round2_mono (closeVal_le_hiVal hpos hdv)⟩

/-- A concrete draw inside all the `random` ranges. -/
def exampleDraw : Draw := ⟨0, 1/1000, 1/1000, 1/2⟩

theorem exampleDraw_valid : ValidDraw exampleDraw := by
  norm_num [ValidDraw, exampleDraw]

/-- Witness for C2 on a concrete one-tick session. -/
theorem bar_invariant_witness :
    0 < openVal (runState initState ([exampleDraw].take 0))
    ∧ loVal (runState initState ([exampleDraw].take 0)) ([exampleDraw].get ⟨0, by decide⟩)
        < hiVal (runState initState ([exampleDraw].take 0)) ([exampleDraw].get ⟨0, by decide⟩)
    ∧ ((runTicks initState [exampleDraw]).get ⟨0, by decide⟩).bar.l
        ≤ ((runTicks initState [exampleDraw]).get ⟨0, by decide⟩).bar.o
    ∧ ((runTicks initState [exampleDraw]).get ⟨0, by decide⟩).bar.o
        ≤ ((runTicks initState [exampleDraw]).get ⟨0, by decide⟩).bar.h
    ∧ ((runTicks initState [exampleDraw]).get ⟨0, by decide⟩).bar.l
        ≤ ((runTicks initState [exampleDraw]).get ⟨0, by decide⟩).bar.c
    ∧ ((runTicks initState [exampleDraw]).get ⟨0, by decide⟩).bar.c
        ≤ ((runTicks initState [exampleDraw]).get ⟨0, by decide⟩).bar.h :=
  bar_invariant [exampleDraw]
    (fun d hd => (List.mem_singleton.mp hd) ▸ exampleDraw_valid)
    0 (by decide) (by decide)

/-! ## JSON serialization (`json.dumps` with default options) -/

/-- Lowercase hexadecimal digit. -/
def hexChar (n : ℕ) : Char := if n < 10 then Char.ofNat (48 + n) else Char.ofNat (87 + n)

/-- `\uXXXX` escape of a 16-bit code unit, as `json.dumps` emits it. -/
def uEsc (n : ℕ) : List Char :=
  ['\\', 'u', hexChar (n / 4096 % 16), hexChar (n / 256 % 16),
   hexChar (n / 16 % 16), hexChar (n % 16)]

/-- Escaping of one character by `json.dumps` with its default
`ensure_ascii=True`: the two JSON specials, the short control escapes, and
`\uXXXX` (surrogate pairs beyond the BMP) for everything outside printable
ASCII. -/
def escChar (c : Char) : List Char :=
  if c = '"' then ['\\', '"']
  else if c = '\\' then ['\\', '\\']
  else if c = '\n' then ['\\', 'n']
  else if c = '\r' then ['\\', 'r']
  else if c = '\t' then ['\\', 't']
  else if c.toNat = 8 then ['\\', 'b']
  else if c.toNat = 12 then ['\\', 'f']
  else if c.toNat < 32 ∨ 126 < c.toNat then
    if c.toNat < 65536 then uEsc c.toNat
    else uEsc (55296 + (c.toNat - 65536) / 1024) ++ uEsc (56320 + (c.toNat - 65536) % 1024)
  else [c]

/-- Escape every character of a character list. -/
def escList : List Char → List Char
  | [] => []
  | c :: cs => escChar c ++ escList cs

/-- Escape every character of a string. -/
def escString (s : String) : String := ⟨escList s.data⟩

/-- A JSON string literal: quotes around the escaped content. -/
def strLit (s : String) : String := "\"" ++ escString s ++ "\""

/-- Rendering of a Python float (here: an exact rational) by `json.dumps`,
which defers to `repr`. For the values the program serializes — floats
carrying at most 2 decimal places — `repr` prints the decimal expansion with
trailing zeros trimmed but at least one fractional digit. Other rationals do
not occur in emitted data; they get a placeholder rendering. -/
def numRepr (q : ℚ) : String :=
  if (q * 100).den = 1 then
    let n := (q * 100).num
    let sgn := if n < 0 then "-" else ""
    let ip := n.natAbs / 100
    let fp := n.natAbs % 100
    if fp % 10 = 0 then sgn ++ toString ip ++ "." ++ toString (fp / 10)
    else sgn ++ toString ip ++ "." ++ (if fp < 10 then "0" else "") ++ toString fp
  else toString q.num ++ "/" ++ toString q.den

/-- The JSON values the program serializes (strings, ints, floats, dicts;
`json.dumps` keeps dict insertion order with `sort_keys=False`). -/
inductive Json where
  | str : String → Json
  | int : ℤ → Json
  | num : ℚ → Json
  | obj : List (String × Json) → Json

mutual

/-- `json.dumps` with its defaults: item separator `", "`, key separator
`": "`, insertion-ordered keys. Serialization of a nested object is exactly
the serialization `dumps` would give it standalone (compositionality). -/
def dumps : Json → String
  | .str s => strLit s
  | .int n => toString n
  | .num q => numRepr q
  | .obj fs => "\x7b" ++ dumpsFields fs ++ "\x7d"

/-- The comma-joined `"key": value` items of an object. -/
def dumpsFields : List (String × Json) → String
  | [] => ""
  | [(k, v)] => strLit k ++ ": " ++ dumps v
  | (k, v) :: f :: fs => strLit k ++ ": " ++ dumps v ++ ", " ++ dumpsFields (f :: fs)

end

/-- Field lookup in a JSON object. -/
def getField (j : Json) (k : String) : Option Json :=
  match j with
  | .obj fs => fs.lookup k
  | _ => none

/-- The `data` dict built each tick (lines 99–112); the two clock readings
(`now`, the ISO-8601 string, and `int(time.time())`) enter as inputs. -/
def mkData (now : String) (symbol : String) (unixSecs : ℤ) (out : TickOut) : Json :=
  .obj [("ts", .str now), ("symbol", .str symbol),
        ("latency_ms", .int out.latency),
        ("venue_count", .int 18), ("control_checks", .int 42),
        ("bar", .obj [("t", .int unixSecs), ("o", .num out.bar.o),
                      ("h", .num out.bar.h), ("l", .num out.bar.l),
                      ("c", .num out.bar.c)])]

/-! ## HMAC-SHA256 (`sign_payload`, lines 76–77)

SHA-256 over byte lists, words as naturals reduced mod `2^32`. -/

/-- Truncation to a 32-bit word. -/
def w32 (n : ℕ) : ℕ := n % 4294967296

/-- 32-bit right rotation. -/
def rotr (k n : ℕ) : ℕ := w32 ((n >>> k) ||| (n <<< (32 - k)))

/-- Bitwise complement within 32 bits. -/
def wnot (n : ℕ) : ℕ := n ^^^ 4294967295

def ch (x y z : ℕ) : ℕ := (x &&& y) ^^^ (wnot x &&& z)

def maj (x y z : ℕ) : ℕ := (x &&& y) ^^^ (x &&& z) ^^^ (y &&& z)

def bsig0 (x : ℕ) : ℕ := rotr 2 x ^^^ rotr 13 x ^^^ rotr 22 x

def bsig1 (x : ℕ) : ℕ := rotr 6 x ^^^ rotr 11 x ^^^ rotr 25 x

def ssig0 (x : ℕ) : ℕ := rotr 7 x ^^^ rotr 18 x ^^^ (x >>> 3)

def ssig1 (x : ℕ) : ℕ := rotr 17 x ^^^ rotr 19 x ^^^ (x >>> 10)

/-- The 64 SHA-256 round constants. -/
def sha256K : List ℕ :=
  [1116352408, 1899447441, 3049323471, 3921009573, 961987163, 1508970993,
   2453635748, 2870763221, 3624381080, 310598401, 607225278, 1426881987,
   1925078388, 2162078206, 2614888103, 3248222580, 3835390401, 4022224774,
   264347078, 604807628, 770255983, 1249150122, 1555081692, 1996064986,
   2554220882, 2821834349, 2952996808, 3210313671, 3336571891, 3584528711,
   113926993, 338241895, 666307205, 773529912, 1294757372, 1396182291,
   1695183700, 1986661051, 2177026350, 2456956037, 2730485921, 2820302411,
   3259730800, 3345764771, 3516065817, 3600352804, 4094571909, 275423344,
   430227734, 506948616, 659060556, 883997877, 958139571, 1322822218,
   1537002063, 1747873779, 1955562222, 2024104815, 2227730452, 2361852424,
   2428436474, 2756734187, 3204031479, 3329325298]

/-- The eight working variables of the compression function. -/
structure H8 where
  a : ℕ
  b : ℕ
  c : ℕ
  d : ℕ
  e : ℕ
  f : ℕ
  g : ℕ
  h : ℕ

/-- SHA-256 initial hash value. -/
def sha256Init : H8 :=
  ⟨1779033703, 3144134277, 1013904242, 2773480762,
   1359893119, 2600822924, 528734635, 1541459225⟩

/-- Extend a message schedule by the given number of extra words. -/
def extendW (ws : List ℕ) : ℕ → List ℕ
  | 0 => ws
  | k + 1 =>
    extendW (ws ++ [w32 (ssig1 (ws.getD (ws.length - 2) 0)
      + ws.getD (ws.length - 7) 0 + ssig0 (ws.getD (ws.length - 15) 0)
      + ws.getD (ws.length - 16) 0)]) k

/-- One compression round. -/
def roundFn (s : H8) (kw : ℕ × ℕ) : H8 :=
  let t1 := w32 (s.h + bsig1 s.e + ch s.e s.f s.g + kw.1 + kw.2)
  let t2 := w32 (bsig0 s.a + maj s.a s.b s.c)
  ⟨w32 (t1 + t2), s.a, s.b, s.c, w32 (s.d + t1), s.e, s.f, s.g⟩

/-- Process one 16-word block. -/
def compress (s : H8) (blk : List ℕ) : H8 :=
  let r := ((sha256K.zip (extendW blk 48))).foldl roundFn s
  ⟨w32 (s.a + r.a), w32 (s.b + r.b), w32 (s.c + r.c), w32 (s.d + r.d),
   w32 (s.e + r.e), w32 (s.f + r.f), w32 (s.g + r.g), w32 (s.h + r.h)⟩

/-- Big-endian 8-byte encoding of a length in bits. -/
def be64 (n : ℕ) : List ℕ :=
  [n >>> 56 % 256, n >>> 48 % 256, n >>> 40 % 256, n >>> 32 % 256,
   n >>> 24 % 256, n >>> 16 % 256, n >>> 8 % 256, n % 256]

/-- SHA-256 padding: `0x80`, zeros to 56 mod 64, then the bit length. -/
def padBytes (msg : List ℕ) : List ℕ :=
  msg ++ [128] ++ List.replicate ((64 - (msg.length + 9) % 64) % 64) 0
    ++ be64 (8 * msg.length)

/-- Split into 64-byte blocks (fuelled by the list length). -/
def toBlocksAux : ℕ → List ℕ → List (List ℕ)
  | 0, _ => []
  | _, [] => []
  | fuel + 1, l => l.take 64 :: toBlocksAux fuel (l.drop 64)

def toBlocks (l : List ℕ) : List (List ℕ) := toBlocksAux l.length l

/-- Big-endian bytes to 32-bit words. -/
def bytesToWords : List ℕ → List ℕ
  | b0 :: b1 :: b2 :: b3 :: rest =>
    (((b0 * 256 + b1) * 256 + b2) * 256 + b3) :: bytesToWords rest
  | _ => []

/-- Big-endian bytes of one 32-bit word. -/
def wordBytes (w : ℕ) : List ℕ := [w >>> 24 % 256, w >>> 16 % 256, w >>> 8 % 256, w % 256]

/-- The 32-byte digest of a final state. -/
def digestBytes (s : H8) : List ℕ :=
  wordBytes s.a ++ wordBytes s.b ++ wordBytes s.c ++ wordBytes s.d
    ++ wordBytes s.e ++ wordBytes s.f ++ wordBytes s.g ++ wordBytes s.h

/-- SHA-256 of a byte sequence. -/
def sha256 (msg : List ℕ) : List ℕ :=
  digestBytes ((((toBlocks (padBytes msg)).map bytesToWords)).foldl compress sha256Init)

/-- HMAC-SHA256 (`hmac.new(key, msg, hashlib.sha256)`): block size 64. -/
def hmacSha256 (key msg : List ℕ) : List ℕ :=
  let k0 := if 64 < key.length then sha256 key else key
  let kp := k0 ++ List.replicate (64 - k0.length) 0
  sha256 ((kp.map (fun b => b ^^^ 92)) ++ sha256 ((kp.map (fun b => b ^^^ 54)) ++ msg))

/-- UTF-8 encoding of one character (`str.encode()`). -/
def utf8Char (c : Char) : List ℕ :=
  if c.toNat < 128 then [c.toNat]
  else if c.toNat < 2048 then [192 + c.toNat / 64, 128 + c.toNat % 64]
  else if c.toNat < 65536 then
    [224 + c.toNat / 4096, 128 + c.toNat / 64 % 64, 128 + c.toNat % 64]
  else
    [240 + c.toNat / 262144, 128 + c.toNat / 4096 % 64,
     128 + c.toNat / 64 % 64, 128 + c.toNat % 64]

/-- UTF-8 bytes of a string (`.encode()`). -/
def strBytes (s : String) : List ℕ := (s.data.map utf8Char).flatten

/-- The two lowercase hex digits of one byte. -/
def hexByte (b : ℕ) : List Char := [hexChar (b / 16), hexChar (b % 16)]

/-- Hex digits of a byte sequence. -/
def hexList : List ℕ → List Char
  | [] => []
  | b :: bs => hexByte b ++ hexList bs

/-- Lowercase-hex rendering of a byte sequence (`.hexdigest()`). -/
def hexOfBytes (bs : List ℕ) : String := ⟨hexList bs⟩

/-- `sign_payload` (lines 76–77): HMAC-SHA256 of the UTF-8 payload under the
UTF-8 secret, rendered as a lowercase hex digest. -/
def sign_payload (secret payload : String) : String :=
  hexOfBytes (hmacSha256 (strBytes secret) (strBytes payload))

/-! ## Properties of the signer (claim C5) -/

/-- The sixteen lowercase hex digits. -/
def hexDigits : List Char := (List.range 16).map hexChar

theorem hexChar_mem {n : ℕ} (h : n < 16) : hexChar n ∈ hexDigits :=
  List.mem_map.mpr ⟨n, List.mem_range.mpr h, rfl⟩

theorem wordBytes_lt {w b : ℕ} (hb : b ∈ wordBytes w) : b < 256 := by
  simp [wordBytes] at hb
  rcases hb with h | h | h | h <;> subst h <;> exact Nat.mod_lt _ (by norm_num)

theorem digestBytes_lt {s : H8} {b : ℕ} (hb : b ∈ digestBytes s) : b < 256 := by
  simp only [digestBytes, List.mem_append] at hb
  rcases hb with ((((((h | h) | h) | h) | h) | h) | h) | h <;> exact wordBytes_lt h

theorem sha256_lt {m : List ℕ} {b : ℕ} (hb : b ∈ sha256 m) : b < 256 :=
  digestBytes_lt (by simpa [sha256] using hb)

theorem sha256_length (m : List ℕ) : (sha256 m).length = 32 := by
  simp [sha256, digestBytes, wordBytes]

theorem hmacSha256_lt {key msg : List ℕ} {b : ℕ} (hb : b ∈ hmacSha256 key msg) :
    b < 256 := by
  simp only [hmacSha256] at hb
  exact sha256_lt hb

theorem hmacSha256_length (key msg : List ℕ) : (hmacSha256 key msg).length = 32 := by
  simp only [hmacSha256]
  exact sha256_length _

theorem hexList_length (bs : List ℕ) : (hexList bs).length = 2 * bs.length := by
  induction bs with
  | nil => rfl
  | cons b bs ih => simp [hexList, hexByte, ih]; omega

theorem hexList_subset {bs : List ℕ} (hb : ∀ b ∈ bs, b < 256) :
    ∀ c ∈ hexList bs, c ∈ hexDigits := by
  induction bs with
  | nil => intro c hc; simp [hexList] at hc
  | cons b bs ih =>
    intro c hc
    have hb0 : b < 256 := hb b (List.mem_cons_self b bs)
    rcases (List.mem_append.mp (by simpa [hexList] using hc)) with h | h
    · rcases (by simpa [hexByte] using h : c = hexChar (b / 16) ∨ c = hexChar (b % 16)) with
        rfl | rfl
      · exact hexChar_mem (by omega)
      · exact hexChar_mem (by omega)
    · exact ih (fun b' hb' => hb b' (List.mem_cons_of_mem _ hb')) c h

/-- **C5** Signer contract: `sign_payload` is a pure function (two calls on
identical inputs agree), its value is the HMAC-SHA256 digest of the UTF-8
payload under the UTF-8 secret, and that value is a 64-character string of
lowercase hexadecimal digits. -/
theorem sign_payload_contract (secret payload : String) :
    sign_payload secret payload = sign_payload secret payload
    ∧ sign_payload secret payload
        = hexOfBytes (hmacSha256 (strBytes secret) (strBytes payload))
    ∧ (sign_payload secret payload).length = 64
    ∧ ∀ c ∈ (sign_payload secret payload).data, c ∈ hexDigits := by
  refine ⟨rfl, rfl, ?_, ?_⟩
  · show (hexList (hmacSha256 (strBytes secret) (strBytes payload))).length = 64
    rw [hexList_length, hmacSha256_length]
  · intro c hc
    exact hexList_subset (fun b hb => hmacSha256_lt hb) c hc

/-! ## The emitted SSE event (claim C4) -/

/-- Lines 113–115: serialize the data dict, sign exactly those bytes, and
interpolate the outer JSON object into the `data: ...` SSE text block. -/
def mkEvent (secret : String) (data : Json) : String :=
  let payload := dumps data
  let sig := sign_payload secret payload
  "data: " ++ dumps (.obj [("payload", data), ("sig", .str sig)]) ++ "\n\n"

theorem escChar_hexDigit : ∀ c ∈ hexDigits, escChar c = [c] := by decide

theorem escList_id {l : List Char} (h : ∀ c ∈ l, c ∈ hexDigits) :
    escList l = l := by
  induction l with
  | nil => rfl
  | cons c cs ih =>
    simp [escList, escChar_hexDigit c (h c (List.mem_cons_self c cs)),
      ih (fun c' hc' => h c' (List.mem_cons_of_mem _ hc'))]

theorem escString_id {s : String} (h : ∀ c ∈ s.data, c ∈ hexDigits) :
    escString s = s :=
  congrArg String.mk (escList_id h)

/-- **C4** Sign-what-you-transmit: the emitted event is the `data: ` block
around the outer JSON object, and that outer serialization embeds the payload
serialization byte-for-byte, with the `sig` field being the signature of
exactly those embedded bytes. -/
theorem sign_what_you_transmit (secret : String) (d : Json) :
    mkEvent secret d
      = "data: "
        ++ dumps (Json.obj [("payload", d),
            ("sig", Json.str (sign_payload secret (dumps d)))])
        ++ "\n\n"
    ∧ dumps (Json.obj [("payload", d),
          ("sig", Json.str (sign_payload secret (dumps d)))])
      = "\x7b\"payload\": " ++ dumps d ++ ", \"sig\": \""
          ++ sign_payload secret (dumps d) ++ "\"\x7d" := by
  constructor
  · rfl
  · have hsig : escString (sign_payload secret (dumps d))
        = sign_payload secret (dumps d) :=
      escString_id (fun c hc => hexList_subset (fun b hb => hmacSha256_lt hb) c hc)
    simp only [dumps, dumpsFields, strLit, hsig]
    rw [show escString "payload" = "payload" from by decide,
        show escString "sig" = "sig" from by decide]
    rw [show ("\x7b\"payload\": " : String)
          = "\x7b" ++ ("\"" ++ ("payload" ++ ("\"" ++ ": "))) from by decide,
        show (", \"sig\": \"" : String)
          = ", " ++ ("\"" ++ ("sig" ++ ("\"" ++ (": " ++ "\"")))) from by decide,
        show ("\"\x7d" : String) = "\"" ++ "\x7d" from by decide]
    simp only [String.append_assoc]

/-! ## Session termination (`sse_market`, lines 120–128; claim C6) -/

/-- The `event_generator` loop of `sse_market`: at iteration `i` the inner
generator has produced its `i`-th event; if `await request.is_disconnected()`
(modelled by `disc i`) reports true the loop breaks, otherwise the event is
yielded. `fuel` bounds the unbounded loop for this finite model. The result
is the list of tick indices whose events are handed to the transport. -/
def sessionIdx (disc : ℕ → Bool) : ℕ → ℕ → List ℕ
  | _, 0 => []
  | i, fuel + 1 => if disc i then [] else i :: sessionIdx disc (i + 1) fuel

/-- The event texts the session hands to the transport, `ev i` being the
`i`-th event `market_stream` yields. -/
def sessionEvents (ev : ℕ → String) (disc : ℕ → Bool) (fuel : ℕ) : List String :=
  (sessionIdx disc 0 fuel).map ev

theorem sessionIdx_lt {disc : ℕ → Bool} {k : ℕ} (hk : disc k = true) :
    ∀ (fuel i0 : ℕ), i0 ≤ k → ∀ i ∈ sessionIdx disc i0 fuel, i < k := by
  intro fuel
  induction fuel with
  | zero => intro i0 _ i hi; simp [sessionIdx] at hi
  | succ f ih =>
    intro i0 h0 i hi
    by_cases hd : disc i0
    · simp [sessionIdx, hd] at hi
    · have hne : i0 ≠ k := fun he => hd (he ▸ hk)
      rcases (by simpa [sessionIdx, hd] using hi :
          i = i0 ∨ i ∈ sessionIdx disc (i0 + 1) f) with rfl | hmem
      · omega
      · exact ih (i0 + 1) (by omega) i hmem

/-- **C6** Session termination: if the transport reports disconnection at
check `k`, every event handed to the transport sink belongs to a tick before
`k`, the count of events emitted at or after the disconnect is zero, and a
loop resumed at the terminated position emits nothing. -/
theorem session_termination (ev : ℕ → String) (disc : ℕ → Bool) (k fuel : ℕ)
    (hk : disc k = true) :
    (∀ i ∈ sessionIdx disc 0 fuel, i < k)
    ∧ ((sessionIdx disc 0 fuel).filter (fun i => decide (k ≤ i))).length = 0
    ∧ (∀ fuel2, sessionIdx disc k fuel2 = [])
    ∧ ∀ fuel2, sessionEvents ev disc fuel2 = (sessionIdx disc 0 fuel2).map ev := by
  have hlt := sessionIdx_lt hk fuel 0 (Nat.zero_le k)
  refine ⟨hlt, ?_, ?_, fun _ => rfl⟩
  · have hnil : (sessionIdx disc 0 fuel).filter (fun i => decide (k ≤ i)) = [] := by
      apply List.filter_eq_nil_iff.mpr
      intro i hi
      simpa using Nat.not_le.mpr (hlt i hi)
    rw [hnil]
    rfl
  · intro fuel2
    cases fuel2 with
    | zero => rfl
    | succ f => simp [sessionIdx, hk]

/-- Witness for C6: disconnection observed at check 2 of a 5-iteration run. -/
theorem session_termination_witness :
    (∀ i ∈ sessionIdx (fun i => decide (i = 2)) 0 5, i < 2)
    ∧ ((sessionIdx (fun i => decide (i = 2)) 0 5).filter
        (fun i => decide (2 ≤ i))).length = 0
    ∧ sessionIdx (fun i => decide (i = 2)) 2 5 = [] :=
  ⟨(session_termination (fun _ => "e") (fun i => decide (i = 2)) 2 5 (by decide)).1,
   (session_termination (fun _ => "e") (fun i => decide (i = 2)) 2 5 (by decide)).2.1,
   (session_termination (fun _ => "e") (fun i => decide (i = 2)) 2 5 (by decide)).2.2.1 5⟩

/-! ## Envelope and event streams (claims C7–C9) -/

/-- `os.getenv("SIGNING_SECRET", "demo-secret")` (line 81): the environment
variable if set, else the fixed default. -/
def resolveSecret (env : Option String) : String := env.getD "demo-secret"

/-- The `symbol` query parameter of `sse_market` (lines 120–123): an absent
parameter defaults to `"BTC-USD"`. -/
def resolveSymbol (q : Option String) : String := q.getD "BTC-USD"

/-- The envelopes a session emits, tick by tick; the two clock readings are
per-tick inputs (`now i`, `unix i`), the bars and latencies come from the
price process. -/
def envelopes (symbol : String) (now : ℕ → String) (unix : ℕ → ℤ) :
    ℕ → SimState → List Draw → List Json
  | _, _, [] => []
  | i, s, d :: ds =>
    mkData (now i) symbol (unix i) (step s d).1
      :: envelopes symbol now unix (i + 1) (step s d).2 ds

/-- The signed SSE events of one session of `market_stream` under a given
environment: each envelope is serialized, signed with the secret resolved at
session start, and wrapped into the event text. -/
def marketEvents (env : Option String) (symbol : String)
    (now : ℕ → String) (unix : ℕ → ℤ) (ds : List Draw) : List String :=
  (envelopes symbol now unix 0 initState ds).map (mkEvent (resolveSecret env))

theorem envelopes_mem {symbol : String} {now : ℕ → String} {unix : ℕ → ℤ}
    {e : Json} (i : ℕ) (s : SimState) (ds : List Draw)
    (h : e ∈ envelopes symbol now unix i s ds) :
    ∃ j out, e = mkData (now j) symbol (unix j) out := by
  induction ds generalizing i s with
  | nil => simp [envelopes] at h
  | cons d ds ih =>
    rcases (by simpa [envelopes] using h :
        e = mkData (now i) symbol (unix i) (step s d).1
          ∨ e ∈ envelopes symbol now unix (i + 1) (step s d).2 ds) with rfl | hmem
    · exact ⟨i, (step s d).1, rfl⟩
    · exact ih _ _ hmem

theorem mkData_symbol (now symbol : String) (unix : ℤ) (out : TickOut) :
    getField (mkData now symbol unix out) "symbol" = some (.str symbol) := rfl

theorem mkData_venue (now symbol : String) (unix : ℤ) (out : TickOut) :
    getField (mkData now symbol unix out) "venue_count" = some (.int 18) := rfl

theorem mkData_checks (now symbol : String) (unix : ℤ) (out : TickOut) :
    getField (mkData now symbol unix out) "control_checks" = some (.int 42) := rfl

/-- **C8** Symbol propagation: every envelope of a session carries the symbol
the stream was requested with (so an "ETH-USD" session tags every tick
"ETH-USD"), and an absent query parameter resolves to "BTC-USD". -/
theorem symbol_propagation (symbol : String) (now : ℕ → String) (unix : ℕ → ℤ)
    (ds : List Draw) :
    (∀ e ∈ envelopes symbol now unix 0 initState ds,
        getField e "symbol" = some (.str symbol))
    ∧ resolveSymbol none = "BTC-USD"
    ∧ resolveSymbol (some "ETH-USD") = "ETH-USD" := by
  refine ⟨?_, rfl, rfl⟩
  intro e he
  obtain ⟨j, out, rfl⟩ := envelopes_mem 0 initState ds he
  exact mkData_symbol _ _ _ _

/-- Witness for C8 on a concrete one-tick "ETH-USD" session. -/
theorem symbol_propagation_witness :
    getField (mkData "t0" "ETH-USD" 0 (step initState exampleDraw).1) "symbol"
      = some (.str "ETH-USD") :=
  (symbol_propagation "ETH-USD" (fun _ => "t0") (fun _ => 0) [exampleDraw]).1
    (mkData "t0" "ETH-USD" 0 (step initState exampleDraw).1)
    (List.mem_cons_self _ _)

/-- **C9** Envelope constants: every envelope of every session carries
`venue_count = 18` and `control_checks = 42`. -/
theorem envelope_constants (symbol : String) (now : ℕ → String) (unix : ℕ → ℤ)
    (ds : List Draw) :
    ∀ e ∈ envelopes symbol now unix 0 initState ds,
      getField e "venue_count" = some (.int 18)
      ∧ getField e "control_checks" = some (.int 42) := by
  intro e he
  obtain ⟨j, out, rfl⟩ := envelopes_mem 0 initState ds he
  exact ⟨mkData_venue _ _ _ _, mkData_checks _ _ _ _⟩

/-- Witness for C9 on a concrete one-tick session. -/
theorem envelope_constants_witness :
    getField (mkData "t0" "BTC-USD" 0 (step initState exampleDraw).1) "venue_count"
      = some (.int 18)
    ∧ getField (mkData "t0" "BTC-USD" 0 (step initState exampleDraw).1) "control_checks"
      = some (.int 42) :=
  envelope_constants "BTC-USD" (fun _ => "t0") (fun _ => 0) [exampleDraw]
    (mkData "t0" "BTC-USD" 0 (step initState exampleDraw).1)
    (List.mem_cons_self _ _)

/-- **C7** Missing-secret fallback: with the environment variable unset the
session does not fail — the resolved secret is the fixed default
"demo-secret", and every event of such a session is the signed wrapping of
its envelope under that default secret. -/
theorem missing_secret_fallback (symbol : String) (now : ℕ → String)
    (unix : ℕ → ℤ) (ds : List Draw) :
    resolveSecret none = "demo-secret"
    ∧ ∀ e ∈ marketEvents none symbol now unix ds,
        ∃ data ∈ envelopes symbol now unix 0 initState ds,
          e = mkEvent "demo-secret" data := by
  refine ⟨rfl, ?_⟩
  intro e he
  rcases List.mem_map.mp he with ⟨data, hd, rfl⟩
  exact ⟨data, hd, rfl⟩

/-- Witness for C7 on a concrete one-tick session with no environment
secret. -/
theorem missing_secret_fallback_witness :
    ∃ data ∈ envelopes "BTC-USD" (fun _ => "t0") (fun _ => 0) 0 initState [exampleDraw],
      mkEvent "demo-secret" (mkData "t0" "BTC-USD" 0 (step initState exampleDraw).1)
        = mkEvent "demo-secret" data :=
  (missing_secret_fallback "BTC-USD" (fun _ => "t0") (fun _ => 0) [exampleDraw]).2
    (mkEvent "demo-secret" (mkData "t0" "BTC-USD" 0 (step initState exampleDraw).1))
    (List.mem_cons_self _ _)
